import Mathlib

/-!
Verification of an all-pairs shortest-path tool (rust-portrait-divergence).

The program reads a weighted edge list, builds an undirected multigraph with
integer costs obtained by casting floating-point weights, and emits, for both
of its strategies (a per-source Dijkstra search and a contraction-hierarchy
index), the list of (src, dst, length) triples for reachable pairs.

The embedding below follows src/main.rs and src/pathfinder.rs.  Rust floats
are modelled by an abstract type `Fp` (NaN, infinities, or a rational value);
`usize`/`u64` are modelled as `Nat` with the saturating `as` cast made
explicit.  The external crates (`pathfinding::dijkstra_all`, `fast_paths`)
are modelled from the spec by executable functions whose shortest-distance
core `distN` is proved correct against a walk-based semantics in this file.
-/

namespace PD

/-- Model of a Rust floating-point value (`f32`/`f64`): NaN, an infinity, or
a finite value, represented as a rational. -/
inductive Fp where
  | nan : Fp
  | posInf : Fp
  | negInf : Fp
  | finite : ℚ → Fp
deriving DecidableEq

/-- Largest value of the 64-bit unsigned target type (`u64`, and `usize` on
the 64-bit targets this program runs on), that is 2 ^ 64 - 1. -/
def U64_MAX : Nat := 18446744073709551615

/-- Rust `as` cast from a float to a 64-bit unsigned integer.  Per the Rust
reference the cast saturates: NaN and negative values go to 0, values whose
truncation exceeds the maximum go to the maximum.  For a non-negative finite
value, truncation toward zero is the floor. -/
def asU64 : Fp → Nat
  | .nan => 0
  | .negInf => 0
  | .posInf => U64_MAX
  | .finite q => if q < 0 then 0 else min q.floor.toNat U64_MAX

/-- One parsed input row (struct `WeightedNodes` in main.rs): source id,
destination id (both `u64`), and an `f32` weight. -/
structure WeightedNodes where
  src : Nat
  dst : Nat
  weight : Fp
deriving DecidableEq

/-- Branch of `DeserializeFloatOrIntegerVisitor` for integer input. -/
def visit_u64 (v : Nat) : Nat := v

/-- Branch of `DeserializeFloatOrIntegerVisitor` for float input: `v as u64`. -/
def visit_f64 (v : Fp) : Nat := asU64 v

/-- One result row (struct `ShortestPathLength` in main.rs). -/
structure ShortestPathLength where
  src : Nat
  dst : Nat
  length : Nat
deriving DecidableEq

/-- A directed arc: (from, to, cost). -/
abbrev Arc := Nat × Nat × Nat

/-- Model of `HashMap<usize, Vec<(usize, usize)>>` as an association list
with unique keys (the iteration order of the hash map is arbitrary; only lookup
and the key count are used by the program). -/
abbrev SuccMap := List (Nat × List (Nat × Nat))

/-- Model of `HashMap::get`: the value stored under key `k`, if present. -/
def lookupKey : SuccMap → Nat → Option (List (Nat × Nat))
  | [], _ => none
  | e :: rest, k => if e.1 = k then some e.2 else lookupKey rest k

/-- Model of `HashMap::contains_key`. -/
def containsKey (m : SuccMap) (k : Nat) : Bool := (lookupKey m k).isSome

/-- Model of `map.get_mut(&key).unwrap().push(v)`: append `v` to the vector
stored under key `k`. -/
def pushEntry (m : SuccMap) (k : Nat) (v : Nat × Nat) : SuccMap :=
  m.map fun e => if e.1 = k then (e.1, e.2 ++ [v]) else e

/-- `insert` from pathfinder.rs: ensure the key `src` is present, then push
`(dst, weight as usize)` onto its vector. -/
def insert (m : SuccMap) (src dst : Nat) (weight : Fp) : SuccMap :=
  pushEntry (if containsKey m src then m else m ++ [(src, [])]) src (dst, asU64 weight)

/-- `PathfinderGraph` from pathfinder.rs. -/
structure PathfinderGraph where
  successors : SuccMap
  num_nodes : Nat

/-- `successors` from pathfinder.rs: the stored vector for a present key,
an empty vector otherwise. -/
def successors (src : Nat) (graph : PathfinderGraph) : List (Nat × Nat) :=
  if containsKey graph.successors src then (lookupKey graph.successors src).getD [] else []

/-- `into_pathfinder_graph` from pathfinder.rs: insert both directions of
every edge, then count the keys. -/
def into_pathfinder_graph (weighted_nodes : List WeightedNodes) : PathfinderGraph :=
  let m := weighted_nodes.foldl
    (fun m node => insert (insert m node.src node.dst node.weight) node.dst node.src node.weight)
    []
  { successors := m, num_nodes := m.length }

/-- All directed arcs stored in a `PathfinderGraph`. -/
def arcsOf (graph : PathfinderGraph) : List Arc :=
  graph.successors.flatMap fun e => e.2.map fun p => (e.1, p.1, p.2)

/-- Successor list of `u` induced by an arc list. -/
def succA (A : List Arc) (u : Nat) : List (Nat × Nat) :=
  A.filterMap fun a => if a.1 = u then some a.2 else none

/-- Vertices of an arc list: all endpoints, without duplicates. -/
def vertsA (A : List Arc) : List Nat :=
  (A.flatMap fun a => [a.1, a.2.1]).dedup

/-- A step list `s` is a walk from `a`: each step `(v, w)` follows an arc of
cost `w` from the current vertex to `v`. -/
def stepsOk (succ : Nat → List (Nat × Nat)) : Nat → List (Nat × Nat) → Prop
  | _, [] => True
  | a, p :: rest => p ∈ succ a ∧ stepsOk succ p.1 rest

/-- Final vertex of a walk starting at `a`. -/
def stepsEnd : Nat → List (Nat × Nat) → Nat
  | a, [] => a
  | _, p :: rest => stepsEnd p.1 rest

/-- Total cost of a walk. -/
def stepsCost (s : List (Nat × Nat)) : Nat := (s.map Prod.snd).sum

/-- There is a walk from `a` to `b` of total cost `d`. -/
def Reaches (succ : Nat → List (Nat × Nat)) (a b d : Nat) : Prop :=
  ∃ s, stepsOk succ a s ∧ stepsEnd a s = b ∧ stepsCost s = d

/-- `d` is the cost of a walk from `a` to `b` and no walk is cheaper. -/
def IsShortest (succ : Nat → List (Nat × Nat)) (a b d : Nat) : Prop :=
  Reaches succ a b d ∧ ∀ e, Reaches succ a b e → d ≤ e

/-- Every arc has a reverse arc of the same cost. -/
def SymSucc (succ : Nat → List (Nat × Nat)) : Prop :=
  ∀ u v w, (v, w) ∈ succ u → (u, w) ∈ succ v

/-- Minimum of two optional costs (`none` is "unreachable", treated as ∞). -/
def optMin : Option Nat → Option Nat → Option Nat
  | none, o => o
  | some a, none => some a
  | some a, some b => some (min a b)

/-- Minimum of a list of optional costs. -/
def listMin (l : List (Option Nat)) : Option Nat := l.foldr optMin none

/-- Minimal cost of a walk from `a` to `b` using at most `k` steps (`none`
when there is none).  This is the executable shortest-distance core used to
model the external search algorithms; it is proved below to compute exactly
the minimal walk cost once `k` covers the vertex count. -/
def distN (succ : Nat → List (Nat × Nat)) : Nat → Nat → Nat → Option Nat
  | 0, a, b => if a = b then some 0 else none
  | k + 1, a, b =>
      optMin (if a = b then some 0 else none)
        (listMin ((succ a).map fun p => (distN succ k p.1 b).map fun d => p.2 + d))

/-- Shortest-path distance over an arc list. -/
def distA (A : List Arc) (a b : Nat) : Option Nat :=
  distN (succA A) (vertsA A).length a b

/-- Modelled from the spec: `dijkstra_all` of the external `pathfinding`
crate, as called by `PathfinderGraph::all_paths_for_node`.  It performs a
label-setting (Dijkstra-style) search with non-negative integer costs and
returns a map from every node reachable from `src` — the start node itself
excluded — to its shortest distance.  The crate also pairs each node with an
optimal parent, which the program discards; the parent is omitted here. -/
def all_paths_for_node (graph : PathfinderGraph) (src : Nat) : List (Nat × Nat) :=
  (vertsA (arcsOf graph)).filterMap fun v =>
    if v = src then none
    else (distA (arcsOf graph) src v).map fun d => (v, d)

/-- Modelled from the spec: the `fast_paths::InputGraph` built by
`into_input_graph` in main.rs.  Every input edge contributes two directed
arcs (`add_edge_bidir`), each costing `weight as usize`; after `freeze` the
node count is the count of distinct node identifiers observed as either
endpoint. -/
structure InputGraph where
  arcs : List Arc
  num_nodes : Nat

/-- `into_input_graph` from main.rs over the modelled `InputGraph`. -/
def into_input_graph (weighted_nodes : List WeightedNodes) : InputGraph :=
  let arcs := weighted_nodes.flatMap fun node =>
    [(node.src, node.dst, asU64 node.weight), (node.dst, node.src, asU64 node.weight)]
  { arcs := arcs, num_nodes := (vertsA arcs).length }

/-- Modelled from the spec: `fast_paths::FastGraph`, the contraction-
hierarchy index produced by `prepare`.  The index is semantically equivalent
to the input graph (identical shortest-path lengths for every reachable
pair), so it is modelled by the same arc list and node count. -/
structure FastGraph where
  arcs : List Arc
  num_nodes : Nat

/-- Modelled from the spec: `fast_paths::prepare`. -/
def prepare (g : InputGraph) : FastGraph :=
  { arcs := g.arcs, num_nodes := g.num_nodes }

/-- Modelled from the spec: `PathCalculator::calc_path`, returning the exact
shortest-path weight for a reachable pair, nothing for an unreachable pair,
and a zero-length trivial path when source equals destination (the latter is
also what the walk semantics gives via the empty walk). -/
def calc_path (graph : FastGraph) (src dst : Nat) : Option Nat :=
  distA graph.arcs src dst

/-- `all_pairs_path_length` from main.rs: the fast-path driver, a double
loop over `[0, num_nodes)` pushing an entry for every `Some` query result. -/
def all_pairs_path_length (graph : FastGraph) : List ShortestPathLength :=
  (List.range graph.num_nodes).flatMap fun src =>
    (List.range graph.num_nodes).filterMap fun dst =>
      (calc_path graph src dst).map fun w => ⟨src, dst, w⟩

/-- `all_pairs_path_length_pathfinder` from main.rs: the Dijkstra driver,
one `all_paths_for_node` call per source in `[0, num_nodes)`. -/
def all_pairs_path_length_pathfinder (graph : PathfinderGraph) : List ShortestPathLength :=
  (List.range graph.num_nodes).flatMap fun src =>
    (all_paths_for_node graph src).map fun p => ⟨src, p.1, p.2⟩

/-- The `Algorithm::Dijkstra` arm of `main`: parse, build, run the direct
driver (I/O omitted). -/
def runDijkstra (el : List WeightedNodes) : List ShortestPathLength :=
  all_pairs_path_length_pathfinder (into_pathfinder_graph el)

/-- The `Algorithm::FastPath` arm of `main`: parse, build, prepare, run the
fast-path driver (I/O omitted). -/
def runFastPath (el : List WeightedNodes) : List ShortestPathLength :=
  all_pairs_path_length (prepare (into_input_graph el))

/-- The Dijkstra driver with an explicit per-source listing order standing
for the arbitrary iteration order of the `HashMap` returned by
`dijkstra_all` (Rust hash maps iterate in an unspecified, per-run order). -/
def allPairsWithListing (graph : PathfinderGraph) (listing : Nat → List (Nat × Nat)) :
    List ShortestPathLength :=
  (List.range graph.num_nodes).flatMap fun src =>
    (listing src).map fun p => ⟨src, p.1, p.2⟩

/-- A listing choice is valid when, per source, it enumerates exactly the
entries of the search's result map, in any order. -/
def ValidListing (graph : PathfinderGraph) (listing : Nat → List (Nat × Nat)) : Prop :=
  ∀ src, (listing src).Perm (all_paths_for_node graph src)

/-- All node identifiers appearing as an endpoint of any edge, in order. -/
def endpointsList (el : List WeightedNodes) : List Nat :=
  el.flatMap fun e => [e.src, e.dst]

/-- The input's node identifiers all lie below the constructed node count
(they occupy the dense index space the drivers iterate over). -/
def DenseIds (el : List WeightedNodes) : Prop :=
  ∀ v ∈ endpointsList el, v < (into_pathfinder_graph el).num_nodes

/-- Successor list of `u` described directly from the edge list: each edge
contributes its two directed arcs, in input order, with cost `cost weight`. -/
def perEdgeSuccWith (cost : Fp → Nat) (el : List WeightedNodes) (u : Nat) :
    List (Nat × Nat) :=
  el.flatMap fun e =>
    (if u = e.src then [(e.dst, cost e.weight)] else []) ++
      (if u = e.dst then [(e.src, cost e.weight)] else [])

/-- Floor of a non-negative finite weight (the description in the spec of the
integer cost; 0 elsewhere). -/
def floorCost : Fp → Nat
  | .finite q => q.floor.toNat
  | _ => 0

/-- A weight is finite, non-negative and below 2^32 (the bound the spec states as the
domain for weights). -/
def weightOk : Fp → Bool
  | .finite q => decide (0 ≤ q) && decide (q < 4294967296)
  | _ => false

/-- Concrete input: one edge between nodes 0 and 1 of weight 1. -/
def el01 : List WeightedNodes := [⟨0, 1, Fp.finite 1⟩]

/-- Concrete input with sparse identifiers: one edge between nodes 0 and 5
of weight 1. -/
def el05 : List WeightedNodes := [⟨0, 5, Fp.finite 1⟩]

/-- Concrete input with a fractional weight: one edge between nodes 0 and 1
of weight 5/2. -/
def elHalf : List WeightedNodes := [⟨0, 1, Fp.finite (mkRat 5 2)⟩]

/-! Minimum-of-options lemmas. -/

theorem optMin_eq_some {x y : Option Nat} {d : Nat} (h : optMin x y = some d) :
    x = some d ∨ y = some d := by
  cases x with
  | none => exact Or.inr h
  | some a =>
    cases y with
    | none => exact Or.inl h
    | some b =>
      simp only [optMin, Option.some.injEq] at h
      rcases min_choice a b with h' | h'
      · exact Or.inl (by rw [← h, h'])
      · exact Or.inr (by rw [← h, h'])

theorem optMin_le_left {x y : Option Nat} {a : Nat} (h : x = some a) :
    ∃ b, b ≤ a ∧ optMin x y = some b := by
  subst h
  cases y with
  | none => exact ⟨a, le_refl a, rfl⟩
  | some c => exact ⟨min a c, min_le_left a c, rfl⟩

theorem optMin_le_right {x y : Option Nat} {a : Nat} (h : y = some a) :
    ∃ b, b ≤ a ∧ optMin x y = some b := by
  subst h
  cases x with
  | none => exact ⟨a, le_refl a, rfl⟩
  | some c => exact ⟨min c a, min_le_right c a, rfl⟩

theorem optMin_zero_left (y : Option Nat) : optMin (some 0) y = some 0 := by
  cases y with
  | none => rfl
  | some b => simp [optMin]

theorem listMin_mem : ∀ {l : List (Option Nat)} {d : Nat}, listMin l = some d → some d ∈ l := by
  intro l
  induction l with
  | nil => intro d h; cases h
  | cons x xs ih =>
    intro d h
    have h' : optMin x (listMin xs) = some d := h
    rcases optMin_eq_some h' with h'' | h''
    · exact List.mem_cons.mpr (Or.inl h''.symm)
    · exact List.mem_cons.mpr (Or.inr (ih h''))

theorem listMin_le : ∀ {l : List (Option Nat)} {a : Nat}, some a ∈ l →
    ∃ b, b ≤ a ∧ listMin l = some b := by
  intro l
  induction l with
  | nil => intro a h; cases h
  | cons x xs ih =>
    intro a h
    rcases List.mem_cons.mp h with h' | h'
    · exact optMin_le_left h'.symm
    · obtain ⟨b, hb, hmin⟩ := ih h'
      obtain ⟨c, hc, h2⟩ := optMin_le_right (x := x) hmin
      exact ⟨c, le_trans hc hb, h2⟩

/-! Walk lemmas. -/

theorem stepsOk_append {succ : Nat → List (Nat × Nat)} :
    ∀ (s₁ s₂ : List (Nat × Nat)) (a : Nat),
      stepsOk succ a (s₁ ++ s₂) ↔ stepsOk succ a s₁ ∧ stepsOk succ (stepsEnd a s₁) s₂ := by
  intro s₁
  induction s₁ with
  | nil => intro s₂ a; simp [stepsOk, stepsEnd]
  | cons p rest ih => intro s₂ a; simp [stepsOk, stepsEnd, ih, and_assoc]

theorem stepsEnd_append :
    ∀ (s₁ s₂ : List (Nat × Nat)) (a : Nat),
      stepsEnd a (s₁ ++ s₂) = stepsEnd (stepsEnd a s₁) s₂ := by
  intro s₁
  induction s₁ with
  | nil => intro s₂ a; rfl
  | cons p rest ih => intro s₂ a; simp [stepsEnd, ih]

theorem stepsCost_append (s₁ s₂ : List (Nat × Nat)) :
    stepsCost (s₁ ++ s₂) = stepsCost s₁ + stepsCost s₂ := by
  simp [stepsCost]

/-! Correctness of the bounded shortest-distance computation. -/

theorem distN_self (succ : Nat → List (Nat × Nat)) (k a : Nat) :
    distN succ k a a = some 0 := by
  cases k with
  | zero => simp [distN]
  | succ k => simp [distN, optMin_zero_left]

theorem distN_sound {succ : Nat → List (Nat × Nat)} :
    ∀ (k a b d : Nat), distN succ k a b = some d →
      ∃ s, stepsOk succ a s ∧ stepsEnd a s = b ∧ stepsCost s = d ∧ s.length ≤ k := by
  intro k
  induction k with
  | zero =>
    intro a b d h
    by_cases hab : a = b
    · subst hab
      simp [distN] at h
      exact ⟨[], trivial, rfl, by simp [stepsCost]; omega, by simp⟩
    · simp [distN, hab] at h
  | succ k ih =>
    intro a b d h
    rcases optMin_eq_some h with h' | h'
    · by_cases hab : a = b
      · subst hab
        simp at h'
        exact ⟨[], trivial, rfl, by simp [stepsCost]; omega, by simp⟩
      · simp [hab] at h'
    · obtain ⟨p, hp, hval⟩ := List.mem_map.mp (listMin_mem h')
      obtain ⟨d₀, hd₀, hsum⟩ := Option.map_eq_some'.mp hval
      obtain ⟨s, hok, hend, hcost, hlen⟩ := ih p.1 b d₀ hd₀
      refine ⟨p :: s, ⟨hp, hok⟩, hend, ?_, by simpa using Nat.succ_le_succ hlen⟩
      simp only [stepsCost, List.map_cons, List.sum_cons] at hcost ⊢
      omega

theorem distN_le {succ : Nat → List (Nat × Nat)} :
    ∀ (s : List (Nat × Nat)) (k a : Nat), stepsOk succ a s → s.length ≤ k →
      ∃ d, d ≤ stepsCost s ∧ distN succ k a (stepsEnd a s) = some d := by
  intro s
  induction s with
  | nil =>
    intro k a _ _
    exact ⟨0, Nat.zero_le _, distN_self succ k a⟩
  | cons p rest ih =>
    intro k a hok hlen
    cases k with
    | zero => simp at hlen
    | succ k =>
      obtain ⟨hp, hrest⟩ := hok
      obtain ⟨d₀, hd₀le, hd₀⟩ := ih k p.1 hrest (by simpa using hlen)
      have hmem : some (p.2 + d₀) ∈ (succ a).map
          fun q => (distN succ k q.1 (stepsEnd p.1 rest)).map fun e => q.2 + e :=
        List.mem_map.mpr ⟨p, hp, by rw [hd₀]; rfl⟩
      obtain ⟨b, hb, hbmin⟩ := listMin_le hmem
      obtain ⟨c, hc, hcmin⟩ :=
        optMin_le_right (x := if a = stepsEnd p.1 rest then some 0 else none) hbmin
      refine ⟨c, ?_, hcmin⟩
      have : stepsCost (p :: rest) = p.2 + stepsCost rest := by
        simp [stepsCost]
      omega

/-! Vertex-membership lemmas for walks over an arc list. -/

theorem mem_vertsA_fst {A : List Arc} {a : Arc} (h : a ∈ A) : a.1 ∈ vertsA A :=
  List.mem_dedup.mpr (List.mem_flatMap.mpr ⟨a, h, by simp⟩)

theorem mem_vertsA_snd {A : List Arc} {a : Arc} (h : a ∈ A) : a.2.1 ∈ vertsA A :=
  List.mem_dedup.mpr (List.mem_flatMap.mpr ⟨a, h, by simp⟩)

theorem mem_succA_iff {A : List Arc} {u : Nat} {p : Nat × Nat} :
    p ∈ succA A u ↔ (u, p) ∈ A := by
  simp only [succA, List.mem_filterMap]
  constructor
  · rintro ⟨⟨a1, a2⟩, ha, hif⟩
    by_cases h1 : a1 = u
    · subst h1
      rw [if_pos rfl] at hif
      cases hif
      exact ha
    · rw [if_neg h1] at hif
      cases hif
  · intro h
    exact ⟨(u, p), h, by simp⟩

theorem steps_fst_mem_verts {A : List Arc} :
    ∀ (s : List (Nat × Nat)) (a : Nat), stepsOk (succA A) a s →
      ∀ p ∈ s, p.1 ∈ vertsA A := by
  intro s
  induction s with
  | nil => intro a _ p hp; cases hp
  | cons q rest ih =>
    intro a hok p hp
    obtain ⟨hq, hrest⟩ := hok
    rcases List.mem_cons.mp hp with rfl | hp'
    · exact mem_vertsA_snd (mem_succA_iff.mp hq)
    · exact ih q.1 hrest p hp'

theorem stepsEnd_mem_verts {A : List Arc} :
    ∀ (s : List (Nat × Nat)) (a : Nat), stepsOk (succA A) a s → s ≠ [] →
      stepsEnd a s ∈ vertsA A := by
  intro s
  induction s with
  | nil => intro a _ h; exact absurd rfl h
  | cons q rest ih =>
    intro a hok _
    obtain ⟨hq, hrest⟩ := hok
    cases rest with
    | nil => exact mem_vertsA_snd (mem_succA_iff.mp hq)
    | cons r rest' => exact ih q.1 hrest (by simp)

theorem stepsStart_mem_verts {A : List Arc} {s : List (Nat × Nat)} {a : Nat}
    (hok : stepsOk (succA A) a s) (hne : s ≠ []) : a ∈ vertsA A := by
  cases s with
  | nil => exact absurd rfl hne
  | cons q rest => exact mem_vertsA_fst (mem_succA_iff.mp hok.1)

/-! Walk shortening: any walk can be replaced by one of at most
`(vertsA A).length` steps, with the same endpoints and no larger cost. -/

theorem split_at_fst :
    ∀ (s : List (Nat × Nat)) (x : Nat), x ∈ s.map Prod.fst →
      ∃ s₁ w s₂, s = s₁ ++ (x, w) :: s₂ := by
  intro s
  induction s with
  | nil => intro x h; cases h
  | cons q rest ih =>
    intro x h
    simp only [List.map_cons, List.mem_cons] at h
    rcases h with h' | h'
    · subst h'
      exact ⟨[], q.2, rest, by simp⟩
    · obtain ⟨s₁, w, s₂, heq⟩ := ih x h'
      exact ⟨q :: s₁, w, s₂, by rw [heq]; rfl⟩

theorem exists_dup_split (s : List (Nat × Nat)) (h : ¬ (s.map Prod.fst).Nodup) :
    ∃ x u w₁ m w₂ v, s = u ++ (x, w₁) :: (m ++ (x, w₂) :: v) := by
  rw [List.nodup_iff_count_le_one] at h
  push_neg at h
  obtain ⟨x, hx⟩ := h
  have hmem : x ∈ s.map Prod.fst := List.count_pos_iff.mp (by omega)
  obtain ⟨s₁, w₁, s₂, rfl⟩ := split_at_fst s x hmem
  rw [List.map_append, List.count_append, List.map_cons, List.count_cons_self] at hx
  by_cases h1 : x ∈ s₁.map Prod.fst
  · obtain ⟨u, w₀, v, rfl⟩ := split_at_fst s₁ x h1
    exact ⟨x, u, w₀, v, w₁, s₂, by simp⟩
  · have h2 : x ∈ s₂.map Prod.fst := by
      rw [List.count_eq_zero.mpr h1] at hx
      exact List.count_pos_iff.mp (by omega)
    obtain ⟨u, w₂, v, rfl⟩ := split_at_fst s₂ x h2
    exact ⟨x, s₁, w₁, u, w₂, v, by simp⟩

theorem shorten_aux (A : List Arc) :
    ∀ (N : Nat) (s : List (Nat × Nat)) (a : Nat), s.length ≤ N → stepsOk (succA A) a s →
      ∃ t, stepsOk (succA A) a t ∧ stepsEnd a t = stepsEnd a s ∧
        stepsCost t ≤ stepsCost s ∧ t.length ≤ (vertsA A).length := by
  intro N
  induction N with
  | zero =>
    intro s a hlen _
    have hnil : s = [] := List.length_eq_zero.mp (Nat.le_zero.mp hlen)
    subst hnil
    exact ⟨[], trivial, rfl, le_refl _, Nat.zero_le _⟩
  | succ N ih =>
    intro s a hlen hok
    by_cases hs : s.length ≤ (vertsA A).length
    · exact ⟨s, hok, rfl, le_refl _, hs⟩
    · push_neg at hs
      have hnd : ¬ (s.map Prod.fst).Nodup := by
        intro hnd
        have hsub : s.map Prod.fst ⊆ vertsA A := by
          intro x hx
          obtain ⟨p, hp, rfl⟩ := List.mem_map.mp hx
          exact steps_fst_mem_verts s a hok p hp
        have hle := (List.subperm_of_subset hnd hsub).length_le
        rw [List.length_map] at hle
        omega
      obtain ⟨x, u, w₁, m, w₂, v, rfl⟩ := exists_dup_split s hnd
      rw [stepsOk_append] at hok
      obtain ⟨hu, hrest⟩ := hok
      obtain ⟨hx₁, hrest⟩ := hrest
      rw [stepsOk_append] at hrest
      obtain ⟨hm, hx₂, hv⟩ := hrest
      have hok' : stepsOk (succA A) a (u ++ (x, w₁) :: v) := by
        rw [stepsOk_append]
        exact ⟨hu, hx₁, hv⟩
      have hlen' : (u ++ (x, w₁) :: v).length ≤ N := by
        simp only [List.length_append, List.length_cons] at hlen ⊢
        omega
      obtain ⟨t, hta, htb, htc, htd⟩ := ih (u ++ (x, w₁) :: v) a hlen' hok'
      refine ⟨t, hta, ?_, ?_, htd⟩
      · rw [htb]
        rw [stepsEnd_append, stepsEnd_append]
        show stepsEnd x v = stepsEnd x (m ++ (x, w₂) :: v)
        rw [stepsEnd_append]
        rfl
      · refine le_trans htc ?_
        simp only [stepsCost_append, stepsCost, List.map_cons, List.sum_cons,
          List.map_append, List.sum_append]
        omega

/-! Exact characterization of `distA`. -/

theorem reaches_of_distA {A : List Arc} {a b d : Nat} (h : distA A a b = some d) :
    Reaches (succA A) a b d := by
  obtain ⟨s, hok, hend, hcost, _⟩ := distN_sound _ _ _ _ h
  exact ⟨s, hok, hend, hcost⟩

theorem distA_le_of_reaches {A : List Arc} {a b d : Nat}
    (h : Reaches (succA A) a b d) : ∃ e, e ≤ d ∧ distA A a b = some e := by
  obtain ⟨s, hok, hend, hcost⟩ := h
  obtain ⟨t, hta, htb, htc, htd⟩ := shorten_aux A s.length s a (le_refl _) hok
  obtain ⟨e, he, hdist⟩ := distN_le t (vertsA A).length a hta htd
  rw [htb, hend] at hdist
  exact ⟨e, le_trans he (hcost ▸ htc), hdist⟩

theorem distA_some_iff {A : List Arc} {a b d : Nat} :
    distA A a b = some d ↔ IsShortest (succA A) a b d := by
  constructor
  · intro h
    refine ⟨reaches_of_distA h, ?_⟩
    intro e he
    obtain ⟨e', he', h'⟩ := distA_le_of_reaches he
    rw [h] at h'
    have hde : d = e' := Option.some.inj h'
    omega
  · rintro ⟨hr, hmin⟩
    obtain ⟨e, he, h⟩ := distA_le_of_reaches hr
    have h1 : d ≤ e := hmin e (reaches_of_distA h)
    have h2 : e = d := le_antisymm he h1
    rw [h, h2]

theorem distA_none_iff {A : List Arc} {a b : Nat} :
    distA A a b = none ↔ ∀ d, ¬ Reaches (succA A) a b d := by
  constructor
  · intro h d hr
    obtain ⟨e, _, h'⟩ := distA_le_of_reaches hr
    rw [h] at h'
    cases h'
  · intro h
    cases hd : distA A a b with
    | none => rfl
    | some d => exact absurd (reaches_of_distA hd) (h d)

theorem distA_self (A : List Arc) (a : Nat) : distA A a a = some 0 :=
  distN_self _ _ _

/-! Symmetry of distances over a symmetric arc list. -/

theorem reaches_snoc {succ : Nat → List (Nat × Nat)} {a b c w d : Nat}
    (h : Reaches succ a b d) (harc : (c, w) ∈ succ b) : Reaches succ a c (d + w) := by
  obtain ⟨s, hok, hend, hcost⟩ := h
  refine ⟨s ++ [(c, w)], ?_, ?_, ?_⟩
  · rw [stepsOk_append, hend]
    exact ⟨hok, harc, trivial⟩
  · rw [stepsEnd_append, hend]
    rfl
  · rw [stepsCost_append, hcost]
    simp [stepsCost]

theorem reaches_rev_aux {succ : Nat → List (Nat × Nat)} (hs : SymSucc succ) :
    ∀ (s : List (Nat × Nat)) (a : Nat), stepsOk succ a s →
      Reaches succ (stepsEnd a s) a (stepsCost s) := by
  intro s
  induction s with
  | nil => intro a _; exact ⟨[], trivial, rfl, rfl⟩
  | cons p rest ih =>
    intro a hok
    obtain ⟨hp, hrest⟩ := hok
    have h2 := reaches_snoc (ih p.1 hrest) (hs a p.1 p.2 hp)
    have h3 : stepsCost (p :: rest) = stepsCost rest + p.2 := by
      simp [stepsCost]
      omega
    rw [show stepsEnd a (p :: rest) = stepsEnd p.1 rest from rfl, h3]
    exact h2

theorem reaches_comm {succ : Nat → List (Nat × Nat)} (hs : SymSucc succ) {a b d : Nat}
    (h : Reaches succ a b d) : Reaches succ b a d := by
  obtain ⟨s, hok, hend, hcost⟩ := h
  have := reaches_rev_aux hs s a hok
  rw [hend, hcost] at this
  exact this

theorem distA_symm {A : List Arc} (hs : SymSucc (succA A)) (a b : Nat) :
    distA A a b = distA A b a := by
  cases h1 : distA A a b with
  | none =>
    cases h2 : distA A b a with
    | none => rfl
    | some d =>
      exact absurd (reaches_comm hs (reaches_of_distA h2)) (distA_none_iff.mp h1 d)
  | some d =>
    cases h2 : distA A b a with
    | none =>
      exact absurd (reaches_comm hs (reaches_of_distA h1)) (distA_none_iff.mp h2 d)
    | some e =>
      have hd := distA_some_iff.mp h1
      have he := distA_some_iff.mp h2
      have h3 : d ≤ e := hd.2 e (reaches_comm hs he.1)
      have h4 : e ≤ d := he.2 d (reaches_comm hs hd.1)
      rw [le_antisymm h3 h4]

/-! Hash-map model lemmas. -/

theorem pushEntry_cons (e : Nat × List (Nat × Nat)) (rest : SuccMap) (k : Nat)
    (v : Nat × Nat) :
    pushEntry (e :: rest) k v =
      (if e.1 = k then (e.1, e.2 ++ [v]) else e) :: pushEntry rest k v := rfl

theorem lookupKey_cons (e : Nat × List (Nat × Nat)) (rest : SuccMap) (u : Nat) :
    lookupKey (e :: rest) u = if e.1 = u then some e.2 else lookupKey rest u := rfl

theorem lookupKey_pushEntry (m : SuccMap) (k : Nat) (v : Nat × Nat) (u : Nat) :
    lookupKey (pushEntry m k v) u =
      if u = k then (lookupKey m k).map (fun l => l ++ [v]) else lookupKey m u := by
  induction m with
  | nil =>
    by_cases h : u = k
    · rw [if_pos h]; rfl
    · rw [if_neg h]; rfl
  | cons e rest ih =>
    rw [pushEntry_cons]
    by_cases hek : e.1 = k
    · rw [if_pos hek, lookupKey_cons, lookupKey_cons e rest k, lookupKey_cons e rest u,
        if_pos hek]
      by_cases huk : u = k
      · have h1 : e.1 = u := hek.trans huk.symm
        rw [if_pos h1, if_pos huk]
        rfl
      · have h2 : ¬ (e.1 = u) := fun h => huk (h.symm.trans hek)
        rw [if_neg h2, if_neg h2, if_neg huk, ih, if_neg huk]
    · rw [if_neg hek, lookupKey_cons, lookupKey_cons e rest k, lookupKey_cons e rest u,
        if_neg hek]
      by_cases heu : e.1 = u
      · have hne2 : ¬ (u = k) := fun h => hek (heu.trans h)
        rw [if_pos heu, if_neg hne2, if_pos heu]
      · rw [if_neg heu, if_neg heu]
        exact ih

theorem lookupKey_append_new (m : SuccMap) (s u : Nat) :
    lookupKey (m ++ [(s, [])]) u =
      if u = s then some ((lookupKey m u).getD []) else lookupKey m u := by
  induction m with
  | nil =>
    show lookupKey [(s, [])] u = _
    rw [lookupKey_cons]
    by_cases h : u = s
    · rw [if_pos (h.symm : s = u), if_pos h]
      rfl
    · rw [if_neg (fun hh => h (hh.symm : u = s)), if_neg h]
  | cons e rest ih =>
    rw [List.cons_append, lookupKey_cons, lookupKey_cons e rest u, ih]
    by_cases h : e.1 = u
    · by_cases h2 : u = s
      · rw [if_pos h, if_pos h2, if_pos h]
        rfl
      · rw [if_pos h, if_neg h2, if_pos h]
    · rw [if_neg h, if_neg h]

theorem insert_lookupKey (m : SuccMap) (s d : Nat) (w : Fp) (u : Nat) :
    (lookupKey (insert m s d w) u).getD [] =
      if u = s then (lookupKey m s).getD [] ++ [(d, asU64 w)]
      else (lookupKey m u).getD [] := by
  unfold insert
  by_cases hc : containsKey m s
  · rw [if_pos hc, lookupKey_pushEntry]
    by_cases hu : u = s
    · subst hu
      unfold containsKey at hc
      obtain ⟨l, hl⟩ := Option.isSome_iff_exists.mp hc
      simp [hl]
    · simp [hu]
  · rw [if_neg hc, lookupKey_pushEntry]
    by_cases hu : u = s
    · subst hu
      rw [if_pos rfl, if_pos rfl, lookupKey_append_new, if_pos rfl]
      simp
    · rw [if_neg hu, if_neg hu, lookupKey_append_new, if_neg hu]

theorem insert2_lookupKey (m : SuccMap) (e : WeightedNodes) (u : Nat) :
    (lookupKey (insert (insert m e.src e.dst e.weight) e.dst e.src e.weight) u).getD [] =
      (lookupKey m u).getD [] ++
        ((if u = e.src then [(e.dst, asU64 e.weight)] else []) ++
          (if u = e.dst then [(e.src, asU64 e.weight)] else [])) := by
  simp only [insert_lookupKey]
  by_cases h1 : u = e.src
  · subst h1
    by_cases h2 : e.src = e.dst
    · simp [h2, List.append_assoc]
    · rw [if_neg h2, if_pos rfl, if_pos rfl, if_neg h2]
      simp
  · by_cases h2 : u = e.dst
    · subst h2
      rw [if_pos rfl, if_neg h1, if_neg h1, if_pos rfl]
      simp
    · rw [if_neg h2, if_neg h1, if_neg h1, if_neg h2]
      simp

theorem build_lookup :
    ∀ (el : List WeightedNodes) (m : SuccMap) (u : Nat),
      (lookupKey (el.foldl (fun m node =>
          insert (insert m node.src node.dst node.weight) node.dst node.src node.weight) m)
        u).getD []
        = (lookupKey m u).getD [] ++ perEdgeSuccWith asU64 el u := by
  intro el
  induction el with
  | nil => intro m u; simp [perEdgeSuccWith]
  | cons e rest ih =>
    intro m u
    rw [List.foldl_cons, ih, insert2_lookupKey]
    simp [perEdgeSuccWith, List.append_assoc]

theorem successors_eq_lookupKey (g : PathfinderGraph) (u : Nat) :
    successors u g = (lookupKey g.successors u).getD [] := by
  unfold successors
  by_cases hc : containsKey g.successors u
  · rw [if_pos hc]
  · rw [if_neg hc]
    unfold containsKey at hc
    cases h : lookupKey g.successors u with
    | none => rfl
    | some l => rw [h] at hc; simp at hc

theorem pfg_successors (el : List WeightedNodes) :
    (into_pathfinder_graph el).successors = el.foldl (fun m node =>
      insert (insert m node.src node.dst node.weight) node.dst node.src node.weight) [] := rfl

theorem successors_pfg (el : List WeightedNodes) (u : Nat) :
    successors u (into_pathfinder_graph el) = perEdgeSuccWith asU64 el u := by
  rw [successors_eq_lookupKey, pfg_successors, build_lookup]
  simp [lookupKey]

/-! Keys of the constructed graph. -/

theorem pushEntry_keys (m : SuccMap) (k : Nat) (v : Nat × Nat) :
    (pushEntry m k v).map Prod.fst = m.map Prod.fst := by
  induction m with
  | nil => rfl
  | cons e rest ih =>
    rw [pushEntry_cons, List.map_cons, List.map_cons, ih]
    by_cases h : e.1 = k
    · rw [if_pos h]
    · rw [if_neg h]

theorem insert_keys (m : SuccMap) (s d : Nat) (w : Fp) :
    (insert m s d w).map Prod.fst =
      if containsKey m s then m.map Prod.fst else m.map Prod.fst ++ [s] := by
  unfold insert
  by_cases hc : containsKey m s
  · rw [if_pos hc, if_pos hc, pushEntry_keys]
  · rw [if_neg hc, if_neg hc, pushEntry_keys, List.map_append]
    rfl

theorem containsKey_iff (m : SuccMap) (k : Nat) :
    containsKey m k = true ↔ k ∈ m.map Prod.fst := by
  induction m with
  | nil => simp [containsKey, lookupKey]
  | cons e rest ih =>
    unfold containsKey at ih ⊢
    rw [lookupKey_cons]
    by_cases h : e.1 = k
    · simp [h]
    · have h2 : ¬ (k = e.1) := fun hh => h hh.symm
      simp [h, h2, ih]

theorem insert_keys_mem (m : SuccMap) (s d : Nat) (w : Fp) (u : Nat) :
    u ∈ (insert m s d w).map Prod.fst ↔ u ∈ m.map Prod.fst ∨ u = s := by
  rw [insert_keys]
  by_cases hc : containsKey m s
  · rw [if_pos hc]
    constructor
    · exact fun h => Or.inl h
    · rintro (h | rfl)
      · exact h
      · exact (containsKey_iff m u).mp hc
  · rw [if_neg hc]
    simp

theorem insert_keys_nodup {m : SuccMap} (h : (m.map Prod.fst).Nodup) (s d : Nat) (w : Fp) :
    ((insert m s d w).map Prod.fst).Nodup := by
  rw [insert_keys]
  by_cases hc : containsKey m s
  · rw [if_pos hc]
    exact h
  · rw [if_neg hc]
    have hs : s ∉ m.map Prod.fst := fun hm => hc ((containsKey_iff m s).mpr hm)
    simp [List.nodup_append, h, hs]

theorem endpointsList_cons (e : WeightedNodes) (rest : List WeightedNodes) (u : Nat) :
    u ∈ endpointsList (e :: rest) ↔ (u = e.src ∨ u = e.dst) ∨ u ∈ endpointsList rest := by
  simp [endpointsList, or_assoc]

theorem build_keys_mem :
    ∀ (el : List WeightedNodes) (m : SuccMap) (u : Nat),
      u ∈ ((el.foldl (fun m node =>
          insert (insert m node.src node.dst node.weight) node.dst node.src node.weight) m).map
        Prod.fst)
        ↔ u ∈ m.map Prod.fst ∨ u ∈ endpointsList el := by
  intro el
  induction el with
  | nil => intro m u; simp [endpointsList]
  | cons e rest ih =>
    intro m u
    rw [List.foldl_cons, ih, insert_keys_mem, insert_keys_mem, endpointsList_cons]
    tauto

theorem build_keys_nodup :
    ∀ (el : List WeightedNodes) (m : SuccMap), (m.map Prod.fst).Nodup →
      ((el.foldl (fun m node =>
          insert (insert m node.src node.dst node.weight) node.dst node.src node.weight) m).map
        Prod.fst).Nodup := by
  intro el
  induction el with
  | nil => intro m h; exact h
  | cons e rest ih =>
    intro m h
    rw [List.foldl_cons]
    exact ih _ (insert_keys_nodup (insert_keys_nodup h _ _ _) _ _ _)

theorem pfg_keys_nodup (el : List WeightedNodes) :
    (((into_pathfinder_graph el).successors).map Prod.fst).Nodup := by
  rw [pfg_successors]
  exact build_keys_nodup el [] (by simp)

theorem pfg_keys_mem (el : List WeightedNodes) (u : Nat) :
    u ∈ ((into_pathfinder_graph el).successors).map Prod.fst ↔ u ∈ endpointsList el := by
  rw [pfg_successors, build_keys_mem]
  simp

/-! Arc lists of the two graphs and their successor functions. -/

theorem succA_append (A B : List Arc) (u : Nat) :
    succA (A ++ B) u = succA A u ++ succA B u := by
  simp [succA, List.filterMap_append]

theorem succA_block (k u : Nat) (l : List (Nat × Nat)) :
    succA (l.map fun p => (k, p.1, p.2)) u = if k = u then l else [] := by
  induction l with
  | nil => simp [succA]
  | cons p rest ih =>
    rw [List.map_cons]
    show succA ((k, p.1, p.2) :: _) u = _
    simp only [succA, List.filterMap_cons] at ih ⊢
    by_cases h : k = u
    · simp only [if_pos h]
      rw [if_pos h] at ih
      simp [ih]
    · simp only [if_neg h]
      rw [if_neg h] at ih
      simp [ih]

theorem arcsOf_keyed (m : SuccMap) :
    (m.flatMap fun e => e.2.map fun p => (e.1, p.1, p.2)) =
      m.flatMap fun e => e.2.map fun p => (e.1, p.1, p.2) := rfl

theorem succA_arcs_of_not_mem :
    ∀ (m : SuccMap) (u : Nat), u ∉ m.map Prod.fst →
      succA (m.flatMap fun e => e.2.map fun p => (e.1, p.1, p.2)) u = [] := by
  intro m
  induction m with
  | nil => intro u _; rfl
  | cons e rest ih =>
    intro u hu
    rw [List.flatMap_cons, succA_append, succA_block]
    have h1 : ¬ (e.1 = u) := by
      intro h
      exact hu (by rw [List.map_cons]; exact List.mem_cons.mpr (Or.inl h.symm))
    have h2 : u ∉ rest.map Prod.fst := by
      intro h
      exact hu (by rw [List.map_cons]; exact List.mem_cons.mpr (Or.inr h))
    rw [if_neg h1, ih u h2]
    rfl

theorem succA_arcs_map :
    ∀ (m : SuccMap), (m.map Prod.fst).Nodup → ∀ u,
      succA (m.flatMap fun e => e.2.map fun p => (e.1, p.1, p.2)) u =
        (lookupKey m u).getD [] := by
  intro m
  induction m with
  | nil => intro _ u; rfl
  | cons e rest ih =>
    intro hnd u
    rw [List.map_cons, List.nodup_cons] at hnd
    rw [List.flatMap_cons, succA_append, succA_block, lookupKey_cons]
    by_cases h : e.1 = u
    · rw [if_pos h, if_pos h]
      have hu : u ∉ rest.map Prod.fst := by
        have h1 := hnd.1
        rwa [h] at h1
      rw [succA_arcs_of_not_mem rest u hu]
      simp
    · rw [if_neg h, if_neg h, ih hnd.2 u]
      simp

theorem succA_arcsOf {g : PathfinderGraph} (h : ((g.successors).map Prod.fst).Nodup)
    (u : Nat) : succA (arcsOf g) u = (lookupKey g.successors u).getD [] :=
  succA_arcs_map g.successors h u

theorem succA_arcsOf_pfg (el : List WeightedNodes) (u : Nat) :
    succA (arcsOf (into_pathfinder_graph el)) u = successors u (into_pathfinder_graph el) := by
  rw [succA_arcsOf (pfg_keys_nodup el), successors_eq_lookupKey]

theorem ig_arcs (el : List WeightedNodes) :
    (into_input_graph el).arcs = el.flatMap fun node =>
      [(node.src, node.dst, asU64 node.weight), (node.dst, node.src, asU64 node.weight)] := rfl

theorem succA_cons (a : Arc) (A : List Arc) (u : Nat) :
    succA (a :: A) u = (if a.1 = u then [a.2] else []) ++ succA A u := by
  simp only [succA, List.filterMap_cons]
  by_cases h : a.1 = u
  · rw [if_pos h, if_pos h]
    rfl
  · rw [if_neg h, if_neg h]
    rfl

theorem if_comm_eq {α : Type} (a b : Nat) (x y : α) :
    (if a = b then x else y) = if b = a then x else y := by
  by_cases h : a = b
  · rw [if_pos h, if_pos h.symm]
  · rw [if_neg h, if_neg (fun hh => h hh.symm)]

theorem succA_pair (s d c cw u : Nat) :
    succA [(s, d, c), (d, s, cw)] u =
      (if u = s then [(d, c)] else []) ++ (if u = d then [(s, cw)] else []) := by
  rw [succA_cons, succA_cons]
  show (if s = u then [(d, c)] else []) ++ ((if d = u then [(s, cw)] else []) ++ succA [] u)
      = _
  rw [if_comm_eq s u, if_comm_eq d u]
  simp [succA]

theorem succA_ig (el : List WeightedNodes) (u : Nat) :
    succA (into_input_graph el).arcs u = perEdgeSuccWith asU64 el u := by
  rw [ig_arcs]
  induction el with
  | nil => rfl
  | cons e rest ih =>
    rw [List.flatMap_cons, succA_append, succA_pair, ih]
    rfl

theorem succ_pfg_eq_ig (el : List WeightedNodes) :
    succA (arcsOf (into_pathfinder_graph el)) = succA (into_input_graph el).arcs :=
  funext fun u => by rw [succA_arcsOf_pfg, successors_pfg, succA_ig]

/-! Vertex sets, symmetry and node counts. -/

theorem mem_vertsA_iff {A : List Arc} {v : Nat} :
    v ∈ vertsA A ↔ ∃ a ∈ A, v = a.1 ∨ v = a.2.1 := by
  simp only [vertsA, List.mem_dedup, List.mem_flatMap, List.mem_cons, List.mem_singleton]
  constructor
  · rintro ⟨a, ha, h⟩
    rcases h with h | h | h
    · exact ⟨a, ha, Or.inl h⟩
    · exact ⟨a, ha, Or.inr h⟩
    · cases h
  · rintro ⟨a, ha, h⟩
    rcases h with h | h
    · exact ⟨a, ha, Or.inl h⟩
    · exact ⟨a, ha, Or.inr (Or.inl h)⟩

theorem vertsA_nodup (A : List Arc) : (vertsA A).Nodup := List.nodup_dedup _

theorem mem_endpointsList_iff {el : List WeightedNodes} {v : Nat} :
    v ∈ endpointsList el ↔ ∃ e ∈ el, v = e.src ∨ v = e.dst := by
  simp [endpointsList]

theorem mem_pair_ifs {u x cw s d cs cd : Nat} :
    (x, cw) ∈ ((if u = s then [(d, cd)] else []) ++ (if u = d then [(s, cs)] else [])) ↔
      (u = s ∧ x = d ∧ cw = cd) ∨ (u = d ∧ x = s ∧ cw = cs) := by
  by_cases h1 : u = s <;> by_cases h2 : u = d <;>
    simp [h1, h2, Prod.ext_iff]

theorem mem_perEdge_iff {c : Fp → Nat} {el : List WeightedNodes} {u x cw : Nat} :
    (x, cw) ∈ perEdgeSuccWith c el u ↔
      ∃ e ∈ el, (u = e.src ∧ x = e.dst ∧ cw = c e.weight) ∨
        (u = e.dst ∧ x = e.src ∧ cw = c e.weight) := by
  induction el with
  | nil => simp [perEdgeSuccWith]
  | cons e rest ih =>
    have hcons : perEdgeSuccWith c (e :: rest) u =
        ((if u = e.src then [(e.dst, c e.weight)] else []) ++
          (if u = e.dst then [(e.src, c e.weight)] else [])) ++ perEdgeSuccWith c rest u := rfl
    rw [hcons]
    rw [List.mem_append, mem_pair_ifs, ih]
    constructor
    · rintro (h | ⟨e', he', h'⟩)
      · exact ⟨e, List.mem_cons.mpr (Or.inl rfl), h⟩
      · exact ⟨e', List.mem_cons.mpr (Or.inr he'), h'⟩
    · rintro ⟨e', he', h'⟩
      rcases List.mem_cons.mp he' with rfl | he''
      · exact Or.inl h'
      · exact Or.inr ⟨e', he'', h'⟩

theorem symSucc_perEdge (el : List WeightedNodes) (c : Fp → Nat) :
    SymSucc (perEdgeSuccWith c el) := by
  intro u v w h
  obtain ⟨e, he, hcase⟩ := mem_perEdge_iff.mp h
  apply mem_perEdge_iff.mpr
  rcases hcase with ⟨h1, h2, h3⟩ | ⟨h1, h2, h3⟩
  · exact ⟨e, he, Or.inr ⟨h2, h1, h3⟩⟩
  · exact ⟨e, he, Or.inl ⟨h2, h1, h3⟩⟩

theorem succA_arcsOf_pfg_fn (el : List WeightedNodes) :
    succA (arcsOf (into_pathfinder_graph el)) = perEdgeSuccWith asU64 el :=
  funext fun u => by rw [succA_arcsOf_pfg, successors_pfg]

theorem succA_ig_fn (el : List WeightedNodes) :
    succA (into_input_graph el).arcs = perEdgeSuccWith asU64 el :=
  funext fun u => succA_ig el u

theorem symSucc_pfg (el : List WeightedNodes) :
    SymSucc (succA (arcsOf (into_pathfinder_graph el))) := by
  rw [succA_arcsOf_pfg_fn]
  exact symSucc_perEdge el asU64

theorem symSucc_ig (el : List WeightedNodes) :
    SymSucc (succA (into_input_graph el).arcs) := by
  rw [succA_ig_fn]
  exact symSucc_perEdge el asU64

theorem vertsA_ig_mem (el : List WeightedNodes) (v : Nat) :
    v ∈ vertsA (into_input_graph el).arcs ↔ v ∈ endpointsList el := by
  rw [mem_vertsA_iff, mem_endpointsList_iff]
  constructor
  · rintro ⟨a, ha, hv⟩
    obtain ⟨e, he, hmem⟩ := List.mem_flatMap.mp ha
    refine ⟨e, he, ?_⟩
    rcases List.mem_cons.mp hmem with rfl | hmem'
    · rcases hv with rfl | rfl
      · exact Or.inl rfl
      · exact Or.inr rfl
    · rcases List.mem_cons.mp hmem' with rfl | hmem''
      · rcases hv with rfl | rfl
        · exact Or.inr rfl
        · exact Or.inl rfl
      · cases hmem''
  · rintro ⟨e, he, hv⟩
    rcases hv with rfl | rfl
    · exact ⟨(e.src, e.dst, asU64 e.weight),
        List.mem_flatMap.mpr ⟨e, he, by simp⟩, Or.inl rfl⟩
    · exact ⟨(e.dst, e.src, asU64 e.weight),
        List.mem_flatMap.mpr ⟨e, he, by simp⟩, Or.inl rfl⟩

theorem vertsA_pfg_mem (el : List WeightedNodes) (v : Nat) :
    v ∈ vertsA (arcsOf (into_pathfinder_graph el)) ↔ v ∈ endpointsList el := by
  rw [mem_vertsA_iff, mem_endpointsList_iff]
  constructor
  · rintro ⟨a, ha, hv⟩
    have h1 : (a.1, a.2) ∈ arcsOf (into_pathfinder_graph el) := ha
    have h2 : a.2 ∈ succA (arcsOf (into_pathfinder_graph el)) a.1 := mem_succA_iff.mpr h1
    rw [succA_arcsOf_pfg, successors_pfg] at h2
    have h3 : (a.2.1, a.2.2) ∈ perEdgeSuccWith asU64 el a.1 := h2
    obtain ⟨e, he, hcase⟩ := mem_perEdge_iff.mp h3
    refine ⟨e, he, ?_⟩
    rcases hv with rfl | rfl
    · rcases hcase with ⟨h4, _, _⟩ | ⟨h4, _, _⟩
      · exact Or.inl h4
      · exact Or.inr h4
    · rcases hcase with ⟨_, h4, _⟩ | ⟨_, h4, _⟩
      · exact Or.inr h4
      · exact Or.inl h4
  · rintro ⟨e, he, hv⟩
    rcases hv with rfl | rfl
    · have h1 : (e.dst, asU64 e.weight) ∈ perEdgeSuccWith asU64 el e.src :=
        mem_perEdge_iff.mpr ⟨e, he, Or.inl ⟨rfl, rfl, rfl⟩⟩
      have h2 : (e.dst, asU64 e.weight) ∈ succA (arcsOf (into_pathfinder_graph el)) e.src := by
        rw [succA_arcsOf_pfg, successors_pfg]
        exact h1
      exact ⟨(e.src, e.dst, asU64 e.weight), mem_succA_iff.mp h2, Or.inl rfl⟩
    · have h1 : (e.src, asU64 e.weight) ∈ perEdgeSuccWith asU64 el e.dst :=
        mem_perEdge_iff.mpr ⟨e, he, Or.inr ⟨rfl, rfl, rfl⟩⟩
      have h2 : (e.src, asU64 e.weight) ∈ succA (arcsOf (into_pathfinder_graph el)) e.dst := by
        rw [succA_arcsOf_pfg, successors_pfg]
        exact h1
      exact ⟨(e.dst, e.src, asU64 e.weight), mem_succA_iff.mp h2, Or.inl rfl⟩

theorem vertsA_perm (el : List WeightedNodes) :
    (vertsA (arcsOf (into_pathfinder_graph el))).Perm (vertsA (into_input_graph el).arcs) :=
  (List.perm_ext_iff_of_nodup (vertsA_nodup _) (vertsA_nodup _)).mpr fun v => by
    rw [vertsA_pfg_mem, vertsA_ig_mem]

theorem distA_pfg_eq_ig (el : List WeightedNodes) (a b : Nat) :
    distA (arcsOf (into_pathfinder_graph el)) a b = distA (into_input_graph el).arcs a b := by
  unfold distA
  rw [succ_pfg_eq_ig, (vertsA_perm el).length_eq]

theorem pfg_num_nodes (el : List WeightedNodes) :
    (into_pathfinder_graph el).num_nodes = (endpointsList el).dedup.length := by
  have h1 : (((into_pathfinder_graph el).successors).map Prod.fst).Perm
      (endpointsList el).dedup :=
    (List.perm_ext_iff_of_nodup (pfg_keys_nodup el) (List.nodup_dedup _)).mpr fun v => by
      rw [pfg_keys_mem, List.mem_dedup]
  have h2 := h1.length_eq
  rw [List.length_map] at h2
  exact h2

theorem ig_num_nodes (el : List WeightedNodes) :
    (into_input_graph el).num_nodes = (endpointsList el).dedup.length := by
  have h1 : (vertsA (into_input_graph el).arcs).Perm (endpointsList el).dedup :=
    (List.perm_ext_iff_of_nodup (vertsA_nodup _) (List.nodup_dedup _)).mpr fun v => by
      rw [vertsA_ig_mem, List.mem_dedup]
  exact h1.length_eq

theorem num_nodes_eq (el : List WeightedNodes) :
    (into_pathfinder_graph el).num_nodes = (into_input_graph el).num_nodes := by
  rw [pfg_num_nodes, ig_num_nodes]

theorem pfg_num_nodes_verts (el : List WeightedNodes) :
    (into_pathfinder_graph el).num_nodes =
      (vertsA (arcsOf (into_pathfinder_graph el))).length := by
  rw [pfg_num_nodes]
  exact ((List.perm_ext_iff_of_nodup (List.nodup_dedup _) (vertsA_nodup _)).mpr fun v => by
    rw [vertsA_pfg_mem, List.mem_dedup]).length_eq

/-! Characterizations of the drivers' result lists. -/

theorem reach_mem_verts {A : List Arc} {a b d : Nat} (h : Reaches (succA A) a b d)
    (hne : b ≠ a) : b ∈ vertsA A ∧ a ∈ vertsA A := by
  obtain ⟨s, hok, hend, hcost⟩ := h
  have hs : s ≠ [] := by
    intro hnil
    subst hnil
    exact hne hend.symm
  exact ⟨hend ▸ stepsEnd_mem_verts s a hok hs, stepsStart_mem_verts hok hs⟩

theorem mem_all_paths_iff {g : PathfinderGraph} {src v d : Nat} :
    (v, d) ∈ all_paths_for_node g src ↔
      v ∈ vertsA (arcsOf g) ∧ v ≠ src ∧ distA (arcsOf g) src v = some d := by
  unfold all_paths_for_node
  rw [List.mem_filterMap]
  constructor
  · rintro ⟨x, hx, hf⟩
    by_cases h : x = src
    · rw [if_pos h] at hf
      cases hf
    · rw [if_neg h] at hf
      obtain ⟨d', hd', heq⟩ := Option.map_eq_some'.mp hf
      rw [Prod.mk.injEq] at heq
      obtain ⟨rfl, rfl⟩ := heq
      exact ⟨hx, h, hd'⟩
  · rintro ⟨hv, hne, hd⟩
    refine ⟨v, hv, ?_⟩
    rw [if_neg hne, hd]
    rfl

theorem mem_driver_pf_iff {g : PathfinderGraph} {r : ShortestPathLength} :
    r ∈ all_pairs_path_length_pathfinder g ↔
      r.src < g.num_nodes ∧ (r.dst, r.length) ∈ all_paths_for_node g r.src := by
  unfold all_pairs_path_length_pathfinder
  rw [List.mem_flatMap]
  constructor
  · rintro ⟨src, hsrc, hmem⟩
    rw [List.mem_map] at hmem
    obtain ⟨p, hp, heq⟩ := hmem
    subst heq
    exact ⟨List.mem_range.mp hsrc, hp⟩
  · rintro ⟨h1, h2⟩
    exact ⟨r.src, List.mem_range.mpr h1, List.mem_map.mpr ⟨(r.dst, r.length), h2, rfl⟩⟩

theorem mem_driver_fast_iff {g : FastGraph} {r : ShortestPathLength} :
    r ∈ all_pairs_path_length g ↔
      r.src < g.num_nodes ∧ r.dst < g.num_nodes ∧
        calc_path g r.src r.dst = some r.length := by
  unfold all_pairs_path_length
  rw [List.mem_flatMap]
  constructor
  · rintro ⟨src, hsrc, hmem⟩
    rw [List.mem_filterMap] at hmem
    obtain ⟨dst, hdst, hf⟩ := hmem
    obtain ⟨w, hw, heq⟩ := Option.map_eq_some'.mp hf
    subst heq
    exact ⟨List.mem_range.mp hsrc, List.mem_range.mp hdst, hw⟩
  · rintro ⟨h1, h2, h3⟩
    refine ⟨r.src, List.mem_range.mpr h1,
      List.mem_filterMap.mpr ⟨r.dst, List.mem_range.mpr h2, ?_⟩⟩
    rw [h3]
    rfl

theorem mem_runDijkstra_iff {el : List WeightedNodes} {a b L : Nat} :
    (⟨a, b, L⟩ : ShortestPathLength) ∈ runDijkstra el ↔
      a < (into_pathfinder_graph el).num_nodes ∧ b ≠ a ∧
        b ∈ vertsA (arcsOf (into_pathfinder_graph el)) ∧
        distA (arcsOf (into_pathfinder_graph el)) a b = some L := by
  unfold runDijkstra
  rw [mem_driver_pf_iff]
  show _ ∧ (b, L) ∈ all_paths_for_node _ a ↔ _
  rw [mem_all_paths_iff]
  tauto

theorem mem_runFastPath_iff {el : List WeightedNodes} {a b L : Nat} :
    (⟨a, b, L⟩ : ShortestPathLength) ∈ runFastPath el ↔
      a < (into_input_graph el).num_nodes ∧ b < (into_input_graph el).num_nodes ∧
        distA (into_input_graph el).arcs a b = some L := by
  unfold runFastPath
  rw [mem_driver_fast_iff]
  exact Iff.rfl

/-! Remaining helpers for the claims. -/

theorem lookupKey_eq_none {m : SuccMap} {k : Nat} (h : k ∉ m.map Prod.fst) :
    lookupKey m k = none := by
  induction m with
  | nil => rfl
  | cons e rest ih =>
    rw [lookupKey_cons,
      if_neg (fun heq => h (by rw [List.map_cons]; exact List.mem_cons.mpr (Or.inl heq.symm)))]
    exact ih fun hm => h (by rw [List.map_cons]; exact List.mem_cons.mpr (Or.inr hm))

theorem perEdge_congr {c1 c2 : Fp → Nat} :
    ∀ (el : List WeightedNodes), (∀ e ∈ el, c1 e.weight = c2 e.weight) →
      ∀ u, perEdgeSuccWith c1 el u = perEdgeSuccWith c2 el u := by
  intro el
  induction el with
  | nil => intro _ u; rfl
  | cons e rest ih =>
    intro h u
    have hcons1 : perEdgeSuccWith c1 (e :: rest) u =
        ((if u = e.src then [(e.dst, c1 e.weight)] else []) ++
          (if u = e.dst then [(e.src, c1 e.weight)] else [])) ++
          perEdgeSuccWith c1 rest u := rfl
    have hcons2 : perEdgeSuccWith c2 (e :: rest) u =
        ((if u = e.src then [(e.dst, c2 e.weight)] else []) ++
          (if u = e.dst then [(e.src, c2 e.weight)] else [])) ++
          perEdgeSuccWith c2 rest u := rfl
    rw [hcons1, hcons2, h e (List.mem_cons.mpr (Or.inl rfl)),
      ih (fun e' he' => h e' (List.mem_cons.mpr (Or.inr he'))) u]

theorem ig_arcs_congr :
    ∀ (el : List WeightedNodes), (∀ e ∈ el, asU64 e.weight = floorCost e.weight) →
      (into_input_graph el).arcs = el.flatMap fun e =>
        [(e.src, e.dst, floorCost e.weight), (e.dst, e.src, floorCost e.weight)] := by
  intro el
  induction el with
  | nil => intro _; rfl
  | cons e rest ih =>
    intro h
    rw [ig_arcs, List.flatMap_cons, h e (List.mem_cons.mpr (Or.inl rfl)), List.flatMap_cons]
    rw [← ig_arcs rest, ih (fun e' he' => h e' (List.mem_cons.mpr (Or.inr he')))]

theorem flatMap_perm_of_perm {α β : Type} (l : List α) (f g : α → List β)
    (h : ∀ x ∈ l, (f x).Perm (g x)) : (l.flatMap f).Perm (l.flatMap g) := by
  induction l with
  | nil => exact List.Perm.refl _
  | cons a rest ih =>
    rw [List.flatMap_cons, List.flatMap_cons]
    exact (h a (List.mem_cons.mpr (Or.inl rfl))).append
      (ih fun x hx => h x (List.mem_cons.mpr (Or.inr hx)))

theorem cast_floor_of_weightOk {q : ℚ} (h : weightOk (Fp.finite q) = true) :
    asU64 (Fp.finite q) = q.floor.toNat := by
  simp only [weightOk, Bool.and_eq_true, decide_eq_true_eq] at h
  obtain ⟨h0, h32⟩ := h
  have hnn : ¬ (q < 0) := not_lt.mpr h0
  have hflt : q.floor < (4294967296 : ℤ) := by
    by_contra hcon
    push_neg at hcon
    have h2 : ((4294967296 : ℤ) : ℚ) ≤ q := Rat.le_floor.mp hcon
    have h3 : ((4294967296 : ℤ) : ℚ) = (4294967296 : ℚ) := by norm_num
    rw [h3] at h2
    exact absurd h2 (not_le.mpr h32)
  have hmin : min q.floor.toNat U64_MAX = q.floor.toNat := by
    unfold U64_MAX
    omega
  rw [show asU64 (Fp.finite q) = if q < 0 then 0 else min q.floor.toNat U64_MAX from rfl,
    if_neg hnn, hmin]

/-! Claim theorems. -/

/-- C1 (amended): when the input's node identifiers all lie below the
constructed node count, the two strategy drivers emit an entry for an
ordered pair of distinct nodes with one side's length if and only if the
other does with the same length.  As stated the claim is false: the fast
driver also reports self pairs, which the direct driver never emits, and on
sparse identifiers (no remapping is performed) reachable pairs fall outside
the iterated index range of one driver. -/
theorem strategies_agree_of_dense (el : List WeightedNodes) (a b L : Nat)
    (hd : DenseIds el) (hab : a ≠ b) :
    (⟨a, b, L⟩ : ShortestPathLength) ∈ runDijkstra el ↔
      (⟨a, b, L⟩ : ShortestPathLength) ∈ runFastPath el := by
  rw [mem_runDijkstra_iff, mem_runFastPath_iff]
  constructor
  · rintro ⟨h1, h2, h3, h4⟩
    refine ⟨?_, ?_, ?_⟩
    · rw [← num_nodes_eq]
      exact h1
    · rw [← num_nodes_eq]
      exact hd b ((vertsA_pfg_mem el b).mp h3)
    · rw [← distA_pfg_eq_ig]
      exact h4
  · rintro ⟨h1, h2, h3⟩
    have h4 : distA (arcsOf (into_pathfinder_graph el)) a b = some L := by
      rw [distA_pfg_eq_ig]
      exact h3
    have hr := reaches_of_distA h4
    refine ⟨?_, fun h => hab h.symm, ?_, h4⟩
    · rw [num_nodes_eq]
      exact h1
    · exact (reach_mem_verts hr (fun h => hab h.symm)).1

/-- Witness for the C1 theorem at a concrete dense input. -/
theorem strategies_agree_of_dense_witness :
    DenseIds el01 ∧ (0 : Nat) ≠ 1 ∧
      ((⟨0, 1, 1⟩ : ShortestPathLength) ∈ runDijkstra el01 ↔
        (⟨0, 1, 1⟩ : ShortestPathLength) ∈ runFastPath el01) :=
  ⟨by unfold DenseIds; decide, by decide,
    strategies_agree_of_dense el01 0 1 1 (by unfold DenseIds; decide) (by decide)⟩

/-- C1 counterexample: on the single edge (0,1,1) the fast driver reports
the self pair (0,0) with length 0 while the direct driver reports nothing
for it, although node 0 trivially reaches itself; and on the sparse edge
(0,5,1) the direct driver reports the reachable pair (0,5) while the fast
driver does not. -/
theorem strategies_disagree :
    Reaches (succA (arcsOf (into_pathfinder_graph el01))) 0 0 0 ∧
      (⟨0, 0, 0⟩ : ShortestPathLength) ∈ runFastPath el01 ∧
      (⟨0, 0, 0⟩ : ShortestPathLength) ∉ runDijkstra el01 ∧
      Reaches (succA (arcsOf (into_pathfinder_graph el05))) 0 5 1 ∧
      (⟨0, 5, 1⟩ : ShortestPathLength) ∈ runDijkstra el05 ∧
      (⟨0, 5, 1⟩ : ShortestPathLength) ∉ runFastPath el05 :=
  ⟨⟨[], trivial, rfl, rfl⟩, by decide, by decide,
    ⟨[(5, 1)], ⟨by decide, trivial⟩, rfl, rfl⟩, by decide, by decide⟩

/-- C2: an entry (v, d) is in the single-source search result for `src`
exactly when `v` is a node other than `src` and `d` is the minimal total
edge cost over all walks from `src` to `v` in the constructed graph (the
start node itself is excluded from the result map). -/
theorem all_paths_for_node_shortest (el : List WeightedNodes) (src v d : Nat) :
    (v, d) ∈ all_paths_for_node (into_pathfinder_graph el) src ↔
      v ≠ src ∧ IsShortest (fun u => successors u (into_pathfinder_graph el)) src v d := by
  have hfn : (fun u => successors u (into_pathfinder_graph el)) =
      succA (arcsOf (into_pathfinder_graph el)) :=
    funext fun u => (succA_arcsOf_pfg el u).symm
  rw [mem_all_paths_iff, hfn]
  constructor
  · rintro ⟨hv, hne, hdist⟩
    exact ⟨hne, distA_some_iff.mp hdist⟩
  · rintro ⟨hne, hshort⟩
    exact ⟨(reach_mem_verts hshort.1 hne).1, hne, distA_some_iff.mpr hshort⟩

/-- Witness for the C2 theorem at a concrete input. -/
theorem all_paths_for_node_shortest_witness :
    (1, 1) ∈ all_paths_for_node (into_pathfinder_graph el01) 0 ↔
      1 ≠ 0 ∧ IsShortest (fun u => successors u (into_pathfinder_graph el01)) 0 1 1 :=
  all_paths_for_node_shortest el01 0 1 1

/-- C3 (amended): when the input's node identifiers all lie below the
constructed node count, each driver emits an entry for an ordered pair of
distinct nodes exactly when the pair is connected by a walk; unreachable
pairs get no entry.  As stated the claim is false: with sparse identifiers
(no remapping is performed) a connected pair whose source lies outside
[0, numNodes) gets no entry. -/
theorem completeness_of_dense (el : List WeightedNodes) (a b : Nat)
    (hd : DenseIds el) (hab : a ≠ b) :
    ((∃ d, Reaches (succA (arcsOf (into_pathfinder_graph el))) a b d) ↔
        ∃ L, (⟨a, b, L⟩ : ShortestPathLength) ∈ runDijkstra el) ∧
      ((∃ d, Reaches (succA (into_input_graph el).arcs) a b d) ↔
        ∃ L, (⟨a, b, L⟩ : ShortestPathLength) ∈ runFastPath el) := by
  have hba : b ≠ a := fun h => hab h.symm
  constructor
  · constructor
    · rintro ⟨d, hr⟩
      obtain ⟨e, _, hdist⟩ := distA_le_of_reaches hr
      refine ⟨e, mem_runDijkstra_iff.mpr ⟨?_, hba, (reach_mem_verts hr hba).1, hdist⟩⟩
      exact hd a ((vertsA_pfg_mem el a).mp (reach_mem_verts hr hba).2)
    · rintro ⟨L, hL⟩
      obtain ⟨_, _, _, h4⟩ := mem_runDijkstra_iff.mp hL
      exact ⟨L, reaches_of_distA h4⟩
  · constructor
    · rintro ⟨d, hr⟩
      obtain ⟨e, _, hdist⟩ := distA_le_of_reaches hr
      refine ⟨e, mem_runFastPath_iff.mpr ⟨?_, ?_, hdist⟩⟩
      · rw [← num_nodes_eq]
        exact hd a ((vertsA_ig_mem el a).mp (reach_mem_verts hr hba).2)
      · rw [← num_nodes_eq]
        exact hd b ((vertsA_ig_mem el b).mp (reach_mem_verts hr hba).1)
    · rintro ⟨L, hL⟩
      obtain ⟨_, _, h3⟩ := mem_runFastPath_iff.mp hL
      exact ⟨L, reaches_of_distA h3⟩

/-- Witness for the C3 theorem at a concrete dense input. -/
theorem completeness_of_dense_witness :
    DenseIds el01 ∧ (0 : Nat) ≠ 1 ∧
      (((∃ d, Reaches (succA (arcsOf (into_pathfinder_graph el01))) 0 1 d) ↔
          ∃ L, (⟨0, 1, L⟩ : ShortestPathLength) ∈ runDijkstra el01) ∧
        ((∃ d, Reaches (succA (into_input_graph el01).arcs) 0 1 d) ↔
          ∃ L, (⟨0, 1, L⟩ : ShortestPathLength) ∈ runFastPath el01)) :=
  ⟨by unfold DenseIds; decide, by decide,
    completeness_of_dense el01 0 1 (by unfold DenseIds; decide) (by decide)⟩

/-- C3 counterexample: on the sparse edge (0,5,1) node 5 reaches node 0 by
a walk of cost 1, yet the whole output of the direct driver is the single entry
(0,5,1) — no entry for the connected ordered pair (5,0) exists. -/
theorem completeness_fails_sparse :
    Reaches (succA (arcsOf (into_pathfinder_graph el05))) 5 0 1 ∧
      runDijkstra el05 = [⟨0, 5, 1⟩] :=
  ⟨⟨[(0, 1)], ⟨by decide, trivial⟩, rfl, rfl⟩, by decide⟩

/-- C4 (amended): when the input's node identifiers all lie below the
constructed node count, both drivers' outputs are symmetric: an entry
(a, b, L) implies an entry (b, a, L).  As stated the claim is false: with
sparse identifiers the direct driver can emit (a, b, L) while never
iterating b as a source. -/
theorem symmetry_of_dense (el : List WeightedNodes) (a b L : Nat) (hd : DenseIds el) :
    ((⟨a, b, L⟩ : ShortestPathLength) ∈ runDijkstra el →
        (⟨b, a, L⟩ : ShortestPathLength) ∈ runDijkstra el) ∧
      ((⟨a, b, L⟩ : ShortestPathLength) ∈ runFastPath el →
        (⟨b, a, L⟩ : ShortestPathLength) ∈ runFastPath el) := by
  constructor
  · intro h
    obtain ⟨h1, h2, h3, h4⟩ := mem_runDijkstra_iff.mp h
    have h4' : distA (arcsOf (into_pathfinder_graph el)) b a = some L := by
      rw [← distA_symm (symSucc_pfg el) a b]
      exact h4
    have hr := reaches_of_distA h4'
    have hne : a ≠ b := fun hcon => h2 hcon.symm
    exact mem_runDijkstra_iff.mpr
      ⟨hd b ((vertsA_pfg_mem el b).mp h3), hne, (reach_mem_verts hr hne).1, h4'⟩
  · intro h
    obtain ⟨h1, h2, h3⟩ := mem_runFastPath_iff.mp h
    refine mem_runFastPath_iff.mpr ⟨h2, h1, ?_⟩
    rw [← distA_symm (symSucc_ig el) a b]
    exact h3

/-- Witness for the C4 theorem at a concrete dense input. -/
theorem symmetry_of_dense_witness :
    DenseIds el01 ∧
      (((⟨0, 1, 1⟩ : ShortestPathLength) ∈ runDijkstra el01 →
          (⟨1, 0, 1⟩ : ShortestPathLength) ∈ runDijkstra el01) ∧
        ((⟨0, 1, 1⟩ : ShortestPathLength) ∈ runFastPath el01 →
          (⟨1, 0, 1⟩ : ShortestPathLength) ∈ runFastPath el01)) :=
  ⟨by unfold DenseIds; decide, symmetry_of_dense el01 0 1 1 (by unfold DenseIds; decide)⟩

/-- C4 counterexample: on the sparse edge (0,5,1) the direct driver emits
(0,5,1) but not the swapped entry (5,0,1). -/
theorem symmetry_fails_sparse :
    (⟨0, 5, 1⟩ : ShortestPathLength) ∈ runDijkstra el05 ∧
      (⟨5, 0, 1⟩ : ShortestPathLength) ∉ runDijkstra el05 := by
  exact ⟨by decide, by decide⟩

/-- C5 (amended): both graph builders set numNodes to the count of distinct
node identifiers observed as either endpoint, but perform no remapping to a
dense index space: the raw identifiers are used as indices, and the
iteration of the driver over [0, numNodes) covers every node appearing in an
edge exactly when the distinct identifiers are precisely 0..numNodes-1.
As stated the claim is false: sparse identifiers are not remapped. -/
theorem num_nodes_and_coverage (el : List WeightedNodes) :
    (into_pathfinder_graph el).num_nodes = (endpointsList el).dedup.length ∧
      (into_input_graph el).num_nodes = (endpointsList el).dedup.length ∧
      ((∀ v ∈ endpointsList el, v < (into_pathfinder_graph el).num_nodes) ↔
        (endpointsList el).dedup.Perm
          (List.range (into_pathfinder_graph el).num_nodes)) := by
  refine ⟨pfg_num_nodes el, ig_num_nodes el, ?_⟩
  constructor
  · intro h
    have hsub : (endpointsList el).dedup ⊆
        List.range (into_pathfinder_graph el).num_nodes := by
      intro v hv
      exact List.mem_range.mpr (h v (List.mem_dedup.mp hv))
    obtain ⟨l, hperm, hsl⟩ := List.subperm_of_subset (List.nodup_dedup _) hsub
    have hlen : l.length = (List.range (into_pathfinder_graph el).num_nodes).length := by
      rw [hperm.length_eq, ← pfg_num_nodes el, List.length_range]
    rw [← hsl.eq_of_length hlen]
    exact hperm.symm
  · intro hperm v hv
    exact List.mem_range.mp (hperm.mem_iff.mp (List.mem_dedup.mpr hv))

/-- Witness for the C5 theorem at a concrete input. -/
theorem num_nodes_and_coverage_witness :
    (into_pathfinder_graph el01).num_nodes = (endpointsList el01).dedup.length ∧
      (into_input_graph el01).num_nodes = (endpointsList el01).dedup.length ∧
      ((∀ v ∈ endpointsList el01, v < (into_pathfinder_graph el01).num_nodes) ↔
        (endpointsList el01).dedup.Perm
          (List.range (into_pathfinder_graph el01).num_nodes)) :=
  num_nodes_and_coverage el01

/-- C5 counterexample: for the sparse edge (0,5,1) the node count is 2, the
identifier 5 appears as an endpoint, and 5 is not below 2 — so node 5 is
not covered by the iteration of the driver over [0, numNodes). -/
theorem no_remapping_counterexample :
    (into_pathfinder_graph el05).num_nodes = 2 ∧ 5 ∈ endpointsList el05 ∧
      ¬ (5 < (into_pathfinder_graph el05).num_nodes) := by
  exact ⟨by decide, by decide, by decide⟩

/-- C6 (amended): the direct driver never emits an entry with src = dst,
but the fast-path driver emits the entry (s, s, 0) for every s below the
node count, because its double loop does not skip src = dst and the query
for such a pair returns a zero-length path.  As stated ("for both
strategies, no src = dst entry") the claim is false. -/
theorem self_pairs_direct_vs_fast (el : List WeightedNodes) :
    (∀ r ∈ runDijkstra el, r.src ≠ r.dst) ∧
      (∀ s, s < (prepare (into_input_graph el)).num_nodes →
        (⟨s, s, 0⟩ : ShortestPathLength) ∈ runFastPath el) := by
  constructor
  · intro r hr
    have h2 := (mem_all_paths_iff.mp (mem_driver_pf_iff.mp hr).2).2.1
    exact fun h => h2 h.symm
  · intro s hs
    exact mem_runFastPath_iff.mpr ⟨hs, hs, distA_self _ s⟩

/-- Witness for the C6 theorem at a concrete input. -/
theorem self_pairs_direct_vs_fast_witness :
    (⟨0, 0, 0⟩ : ShortestPathLength) ∈ runFastPath el01 :=
  (self_pairs_direct_vs_fast el01).2 0 (by decide)

/-- C6 counterexample: on the single edge (0,1,1) the fast-path strategy
output contains the entry (0,0,0), whose source equals its destination. -/
theorem fast_emits_self_pair :
    (⟨0, 0, 0⟩ : ShortestPathLength) ∈ runFastPath el01 ∧
      (⟨1, 1, 0⟩ : ShortestPathLength) ∈ runFastPath el01 := by
  exact ⟨by decide, by decide⟩

/-- C7: when every weight is finite, non-negative and below 2^32, each
input edge contributes exactly two directed arcs — src to dst and dst to
src — to both graphs, in input order and without deduplication, each with
integer cost equal to the floor of its weight. -/
theorem graph_build_two_arcs (el : List WeightedNodes)
    (hw : ∀ e ∈ el, weightOk e.weight = true) :
    (∀ u, successors u (into_pathfinder_graph el) = perEdgeSuccWith floorCost el u) ∧
      (into_input_graph el).arcs = el.flatMap fun e =>
        [(e.src, e.dst, floorCost e.weight), (e.dst, e.src, floorCost e.weight)] := by
  have hcast : ∀ e ∈ el, asU64 e.weight = floorCost e.weight := by
    intro e he
    have h := hw e he
    cases hwt : e.weight with
    | finite q =>
      rw [hwt] at h
      rw [cast_floor_of_weightOk h]
      rfl
    | nan => rw [hwt] at h; cases h
    | posInf => rw [hwt] at h; cases h
    | negInf => rw [hwt] at h; cases h
  constructor
  · intro u
    rw [successors_pfg, perEdge_congr el hcast u]
  · exact ig_arcs_congr el hcast

/-- Witness for the C7 theorem: a single edge of weight 5/2 yields the two
arcs of cost 2 in both graphs. -/
theorem graph_build_two_arcs_witness :
    (∀ e ∈ elHalf, weightOk e.weight = true) ∧
      ((∀ u, successors u (into_pathfinder_graph elHalf) =
          perEdgeSuccWith floorCost elHalf u) ∧
        (into_input_graph elHalf).arcs = elHalf.flatMap fun e =>
          [(e.src, e.dst, floorCost e.weight), (e.dst, e.src, floorCost e.weight)]) :=
  ⟨by decide, graph_build_two_arcs elHalf (by decide)⟩

/-- C8: for a fixed input and the Dijkstra algorithm, any two runs of the
driver — whose per-source entry order is the arbitrary iteration order of
the search's hash map — produce result lists that are permutations of each
other; and the driver is exactly the listing driver run on the canonical
listing.  The fast-path driver is a pure function of the input, so its two
runs are literally equal. -/
theorem results_perm_invariant (el : List WeightedNodes)
    (f₁ f₂ : Nat → List (Nat × Nat))
    (h₁ : ValidListing (into_pathfinder_graph el) f₁)
    (h₂ : ValidListing (into_pathfinder_graph el) f₂) :
    (allPairsWithListing (into_pathfinder_graph el) f₁).Perm
        (allPairsWithListing (into_pathfinder_graph el) f₂) ∧
      all_pairs_path_length_pathfinder (into_pathfinder_graph el) =
        allPairsWithListing (into_pathfinder_graph el)
          (all_paths_for_node (into_pathfinder_graph el)) := by
  constructor
  · unfold allPairsWithListing
    apply flatMap_perm_of_perm
    intro src _
    exact ((h₁ src).trans (h₂ src).symm).map _
  · rfl

/-- Witness for the C8 theorem: the canonical listing and its reversal. -/
theorem results_perm_invariant_witness :
    (allPairsWithListing (into_pathfinder_graph el01)
        (all_paths_for_node (into_pathfinder_graph el01))).Perm
      (allPairsWithListing (into_pathfinder_graph el01)
        (fun s => (all_paths_for_node (into_pathfinder_graph el01) s).reverse)) :=
  (results_perm_invariant el01 _ _ (fun _ => List.Perm.refl _)
    (fun s => (all_paths_for_node (into_pathfinder_graph el01) s).reverse_perm)).1

/-- C9: every float-to-unsigned cast performed during ingestion and graph
construction is the saturating Rust cast: NaN and the infinities clamp to 0
or the maximum, a negative finite value casts to 0, a finite value above
the maximum casts to the maximum, the result never exceeds the maximum and
the cast is total; the float visitor is this cast, and every arc cost in
the built graph is this cast of some input edge's weight. -/
theorem float_cast_saturating (q : ℚ) (w : Fp) (el : List WeightedNodes) (u v c : Nat) :
    asU64 Fp.nan = 0 ∧ asU64 Fp.negInf = 0 ∧ asU64 Fp.posInf = U64_MAX ∧
      (q < 0 → asU64 (Fp.finite q) = 0) ∧
      ((U64_MAX : ℚ) < q → asU64 (Fp.finite q) = U64_MAX) ∧
      asU64 (Fp.finite q) ≤ U64_MAX ∧
      visit_f64 w = asU64 w ∧
      ((v, c) ∈ successors u (into_pathfinder_graph el) → ∃ e ∈ el, c = asU64 e.weight) := by
  refine ⟨rfl, rfl, rfl, ?_, ?_, ?_, rfl, ?_⟩
  · intro h
    rw [show asU64 (Fp.finite q) = if q < 0 then 0 else min q.floor.toNat U64_MAX from rfl,
      if_pos h]
  · intro h
    have h1 : (U64_MAX : ℤ) ≤ q.floor := Rat.le_floor.mpr (by exact_mod_cast le_of_lt h)
    have h2 : ¬ (q < 0) := by
      intro hneg
      have h3 : (0 : ℚ) ≤ (U64_MAX : ℚ) := by positivity
      exact absurd (lt_trans (lt_of_le_of_lt h3 h) hneg) (lt_irrefl 0)
    rw [show asU64 (Fp.finite q) = if q < 0 then 0 else min q.floor.toNat U64_MAX from rfl,
      if_neg h2]
    omega
  · rw [show asU64 (Fp.finite q) = if q < 0 then 0 else min q.floor.toNat U64_MAX from rfl]
    by_cases h : q < 0
    · rw [if_pos h]
      exact Nat.zero_le _
    · rw [if_neg h]
      exact min_le_right _ _
  · intro hmem
    rw [successors_pfg] at hmem
    obtain ⟨e, he, hcase⟩ := mem_perEdge_iff.mp hmem
    rcases hcase with ⟨_, _, h3⟩ | ⟨_, _, h3⟩ <;> exact ⟨e, he, h3⟩

/-- Witness for the C9 theorem: a negative weight casts to 0 and NaN casts
to 0. -/
theorem float_cast_saturating_witness :
    asU64 (Fp.finite (mkRat (-3) 2)) = 0 ∧ asU64 Fp.nan = 0 :=
  ⟨(float_cast_saturating (mkRat (-3) 2) Fp.nan [] 0 0 0).2.2.2.1 (by decide),
    (float_cast_saturating (mkRat (-3) 2) Fp.nan [] 0 0 0).1⟩

/-- C10: for a source key absent from the constructed successor map, the
successor lookup returns the empty list rather than failing, and the
single-source search returns the empty result map. -/
theorem unknown_source_total (el : List WeightedNodes) (src : Nat)
    (h : src ∉ ((into_pathfinder_graph el).successors).map Prod.fst) :
    successors src (into_pathfinder_graph el) = [] ∧
      all_paths_for_node (into_pathfinder_graph el) src = [] := by
  have h1 : successors src (into_pathfinder_graph el) = [] := by
    rw [successors_eq_lookupKey, lookupKey_eq_none h]
    rfl
  have h2 : ∀ v, v ≠ src → distA (arcsOf (into_pathfinder_graph el)) src v = none := by
    intro v hv
    rw [distA_none_iff]
    intro d hr
    obtain ⟨s, hok, hend, _⟩ := hr
    cases s with
    | nil => exact hv hend.symm
    | cons p rest =>
      have hp := hok.1
      rw [succA_arcsOf_pfg el src, h1] at hp
      cases hp
  refine ⟨h1, ?_⟩
  unfold all_paths_for_node
  apply List.filterMap_eq_nil_iff.mpr
  intro v _
  by_cases hvs : v = src
  · rw [if_pos hvs]
  · rw [if_neg hvs, h2 v hvs]
    rfl

/-- Witness for the C10 theorem: index 7 appears in no edge of the one-edge
input, and both the successor lookup and the search come back empty. -/
theorem unknown_source_total_witness :
    successors 7 (into_pathfinder_graph el01) = [] ∧
      all_paths_for_node (into_pathfinder_graph el01) 7 = [] :=
  unknown_source_total el01 7 (by decide)

end PD
